import Mathlib

/-!
Verification of the `sgip-ev-charging` decision engine.

This file gives a shallow embedding of the core of the repository:

* `src/config.rs` — the `Charging` policy structure and its `Validate` impl;
* `src/intervals.rs` — `RangeExt::intersect`, the date iterator and
  `Charging::allowed_times_during`;
* `src/controller.rs` — goal construction and `Charging::can_charge`;
* `src/history.rs` — `History::at` and `History::histogram_over`;
* `src/forecast_ext.rs` — `Forecast::histogram_over`.

Modelling conventions:

* UTC instants are integers (seconds).  Local calendar days are integers
  (day indices) and local times of day are integers (seconds of day).
* The local time zone (chrono-tz `US::Pacific` in the source) is an abstract
  parameter `Tz` packaging the local/UTC conversions together with the
  coherence properties that every real time zone satisfies.  `Tz.fromLocal`
  models `Date::and_time`, i.e. `from_local_datetime(..).single()`: it
  returns `none` when the local datetime does not exist (DST gap) or is
  ambiguous; the source calls `.unwrap()` on it, which panics on `none`.
* `f64` values are modelled exactly by `ℚ`.  A required charging proportion
  is a `WithTop ℚ`, with `⊤` standing for the IEEE `+∞` produced by a
  positive numerator divided by an `available_charging_hours` of zero.
* Fallible/panicking computations return `Option`; `none` models a panic.
* The `hdrhistogram` crate is external to the repository; following §4.2 of
  the spec a histogram is the multiset (list) of its recorded `u64` samples
  and `value_at_quantile q` is the smallest recorded value whose cumulative
  count reaches `max 1 ⌈(min q 1) * total⌉` samples (the crate caps the
  quantile at `1.0` and reads at least one count; a negative quantile gives
  a nonpositive target count, hence the minimum sample, exactly as the
  crate's `count_at_quantile = max(ceil(q*total), 1)` does).  The 3
  significant-digit bucket rounding is the identity for values below 2048
  (rates below 2.048 kg/kWh) and is abstracted away.
-/

namespace Sgip

/-- Computable floor of a rational: `q.num / q.den` with integer (Euclidean,
hence floor, the denominator being positive) division. -/
def floorQ (q : ℚ) : ℤ := q.num / (q.den : ℤ)

/-- Computable ceiling of a rational. -/
def ceilQ (q : ℚ) : ℤ := -((-q).num / ((-q).den : ℤ))

/-- The abstract local time zone: `fromLocal d t` is the UTC instant of
second-of-day `t` on local day `d` (`none` for a nonexistent or ambiguous
local time, as chrono's `and_time(..)`/`single()`), `localDay`/`localSec`
give the local day and second-of-day of a UTC instant.  The property fields
are the coherence conditions every real time zone satisfies. -/
structure Tz where
  fromLocal : ℤ → ℤ → Option ℤ
  localDay : ℤ → ℤ
  localSec : ℤ → ℤ
  localSec_nonneg : ∀ u, 0 ≤ localSec u
  localSec_lt : ∀ u, localSec u < 86400
  fromLocal_day : ∀ d t u, fromLocal d t = some u → localDay u = d
  fromLocal_sec : ∀ d t u, fromLocal d t = some u → localSec u = t
  fromLocal_mono : ∀ {d t d' t' u u'}, fromLocal d t = some u →
    fromLocal d' t' = some u' → (d < d' ∨ (d = d' ∧ t < t')) → u < u'
  localDay_mono : ∀ {u v}, u ≤ v → localDay u ≤ localDay v

/-- A fixed-offset UTC-8 time zone (Pacific standard time with no DST
transitions); used for concrete witnesses. -/
def pstTz : Tz where
  fromLocal d t := if 0 ≤ t ∧ t < 86400 then some (d * 86400 + t + 28800) else none
  localDay u := (u - 28800) / 86400
  localSec u := (u - 28800) % 86400
  localSec_nonneg u := by dsimp only; omega
  localSec_lt u := by dsimp only; omega
  fromLocal_day d t u h := by
    dsimp only at h ⊢
    split at h
    · injection h with h; omega
    · exact Option.noConfusion h
  fromLocal_sec d t u h := by
    dsimp only at h ⊢
    split at h
    · injection h with h; omega
    · exact Option.noConfusion h
  fromLocal_mono := by
    intro d t d' t' u u' h h' hlt
    dsimp only at h h'
    split at h
    · split at h'
      · injection h with h; injection h' with h'; omega
      · exact Option.noConfusion h'
    · exact Option.noConfusion h
  localDay_mono := by intro u v h; dsimp only; omega

/-- A time zone with a single DST spring-forward transition: on local day 0
the local times in `[7200, 10800)` (02:00–03:00) do not exist; earlier local
days use offset UTC-8, instants from the transition (UTC 36000) on use
UTC-7.  Used to exhibit the `and_time(..).unwrap()` panic of the source. -/
def gapTz : Tz where
  fromLocal d t :=
    if 0 ≤ t ∧ t < 86400 then
      if d < 0 then some (d * 86400 + t + 28800)
      else if d = 0 then
        if t < 7200 then some (t + 28800)
        else if t < 10800 then none
        else some (t + 25200)
      else some (d * 86400 + t + 25200)
    else none
  localDay u := if u < 36000 then (u - 28800) / 86400 else (u - 25200) / 86400
  localSec u := if u < 36000 then (u - 28800) % 86400 else (u - 25200) % 86400
  localSec_nonneg u := by dsimp only; split <;> omega
  localSec_lt u := by dsimp only; split <;> omega
  fromLocal_day d t u h := by
    dsimp only at h ⊢
    split_ifs at h <;>
      first
        | exact Option.noConfusion h
        | (injection h with h; split <;> omega)
  fromLocal_sec d t u h := by
    dsimp only at h ⊢
    split_ifs at h <;>
      first
        | exact Option.noConfusion h
        | (injection h with h; split <;> omega)
  fromLocal_mono := by
    intro d t d' t' u u' h h' hlt
    dsimp only at h h'
    split_ifs at h <;>
      first
        | exact Option.noConfusion h
        | (injection h with h;
           split_ifs at h' <;>
             first
               | exact Option.noConfusion h'
               | (injection h' with h'; omega))
  localDay_mono := by
    intro u v h
    dsimp only
    split <;> split <;> omega

/-- The `Charging` policy of `src/config.rs`.  `region` (an opaque tag) and
the credential structures play no role in the decision logic and are
omitted; `NaiveTime` values are seconds of day (`ℤ`, always in
`[0, 86400)` by the invariant of `NaiveTime`), `f64` fields are `ℚ`. -/
structure Charging where
  allowed_times : List (ℤ × ℤ)
  charge_rate_kw : ℚ
  capacity_kwh : ℚ
  max_charge : ℚ
  flex_charge_hours : ℤ
  daily_goals : List (ℤ × ℚ)
deriving Repr, DecidableEq

/-- The `Validate` impl for `Charging` in `src/config.rs` (lines 56–110):
`true` iff every check passes (`Ok`), `false` iff some check returns an
error.  The checks appear in source order: `max_charge ∈ [0.0, 1.0)`,
`flex_charge_hours ∈ [0, 7*24)`, every daily-goal charge in `[0.0, 1.0)`,
`allowed_times` non-empty, each pair `start < end`, consecutive pairs
`prev_end < next_start` (the source errors when `prev_end >= next_start`,
checked over `allowed_times.iter().zip(allowed_times.iter().skip(1))`). -/
def validate (P : Charging) : Bool :=
  decide (0 ≤ P.max_charge) && decide (P.max_charge < 1) &&
  decide (0 ≤ P.flex_charge_hours) && decide (P.flex_charge_hours < 7 * 24) &&
  P.daily_goals.all (fun g => decide (0 ≤ g.2) && decide (g.2 < 1)) &&
  !P.allowed_times.isEmpty &&
  P.allowed_times.all (fun se => decide (se.1 < se.2)) &&
  (P.allowed_times.zip P.allowed_times.tail).all (fun x => decide (x.1.2 < x.2.1))

/-- `RangeExt::intersect` from `src/intervals.rs` (lines 12–23), on
half-open integer intervals `(start, end)`: `None` iff
`b.start > a.end || a.start > b.end`, otherwise
`Some (max a.start b.start, min a.end b.end)` (which may be empty, i.e.
have equal endpoints, when the ranges merely touch). -/
def intersect (a b : ℤ × ℤ) : Option (ℤ × ℤ) :=
  if b.1 > a.2 ∨ a.1 > b.2 then none
  else some (max a.1 b.1, min a.2 b.2)

/-- One local day of `charging_times_for_day` composed with the
`map_while(intersect)` of `allowed_times_during`: walks the `allowed_times`
pairs of day `d` in order; a pair whose local endpoints fail to convert
(`and_time(..).unwrap()` panic) yields `none`; a pair whose UTC window does
not intersect `range` stops the iteration (`map_while` sees `None`),
returning the intervals emitted so far and the stop flag `true`;
otherwise the intersection is emitted and the walk continues. -/
def processPairs (tz : Tz) (d : ℤ) (range : ℤ × ℤ) :
    List (ℤ × ℤ) → Option (List (ℤ × ℤ) × Bool)
  | [] => some ([], false)
  | (s, e) :: rest =>
    match tz.fromLocal d s, tz.fromLocal d e with
    | some us, some ue =>
      match intersect (us, ue) range with
      | none => some ([], true)
      | some iv => (processPairs tz d range rest).map (fun p => (iv :: p.1, p.2))
    | _, _ => none

/-- Iteration over the local days `d, d+1, …` (fuelled), flat-mapping
`processPairs` until a day reports the `map_while` stop.  The fuel is chosen
by `allowed_times_during` to cover every day the lazy source iterator can
reach before stopping. -/
def processDays (tz : Tz) (P : Charging) (range : ℤ × ℤ) :
    ℕ → ℤ → Option (List (ℤ × ℤ))
  | 0, _ => some []
  | n + 1, d =>
    match processPairs tz d range P.allowed_times with
    | none => none
    | some (l, true) => some l
    | some (l, false) =>
      match processDays tz P range n (d + 1) with
      | none => none
      | some rest => some (l ++ rest)

/-- `Charging::allowed_times_during` from `src/intervals.rs` (lines 42–57)
on the range `[a, b)`.  `start_date` is the local date of `a`; the source's
`DateIterator` yields `date.succ_opt()` first and therefore starts at the
day after `start_date`.  A window on a local day `d > localDay b` starts
after `b` (by `Tz` coherence), so the `map_while` stop is reached no later
than the first pair of day `max (localDay b) (localDay a) + 1`; the fuel
covers the days up to and including that day, exactly the days the lazy
iterator can examine (beyond them nothing is evaluated, so in particular no
`and_time` panic there is observable).  `none` models a panic. -/
def allowed_times_during (tz : Tz) (P : Charging) (a b : ℤ) :
    Option (List (ℤ × ℤ)) :=
  let d0 := tz.localDay a
  let dmax := max (tz.localDay b) d0
  processDays tz P (a, b) (dmax + 1 - d0).toNat (d0 + 1)

/-- Modelled from the spec: `Charging::allowed_at` is called by
`can_charge` and the live loop but its definition is not among the source
files; §4.1 of the spec defines it as "True iff some allowed-times pair
contains the local time-of-day of `t`", with half-open windows
(`t = start` allowed, `t = end` not, per §8). -/
def allowed_at (tz : Tz) (P : Charging) (t : ℤ) : Bool :=
  P.allowed_times.any fun se =>
    decide (se.1 ≤ tz.localSec t) && decide (tz.localSec t < se.2)

/-- The `(rate * 1000.) as u64` conversion used throughout the source: the
Rust `as` cast from `f64` to `u64` truncates toward zero and saturates, so
a negative product gives `0` and an overlarge one gives `u64::MAX`. -/
def toU64 (r : ℚ) : ℕ := (min (max (floorQ (r * 1000)) 0) (2 ^ 64 - 1)).toNat

/-- The `emissions_limit as i64` cast of `can_charge`: a `u64` value
reinterpreted as `i64` (wrapping). -/
def toI64 (v : ℕ) : ℤ := if v < 2 ^ 63 then (v : ℤ) else (v : ℤ) - 2 ^ 64

/-- Histogram `value_at_quantile` of the external `hdrhistogram` crate,
per §4.2 of the spec: the smallest recorded value whose cumulative count
reaches `max 1 ⌈(min q 1) * total⌉`; `0` on an empty histogram.  On the
sorted samples this is the element at index `target - 1`. -/
def value_at_quantile (samples : List ℕ) (q : ℚ) : ℕ :=
  if samples.isEmpty then 0
  else
    let sorted := samples.insertionSort (· ≤ ·)
    let target := max (ceilQ (min q 1 * (samples.length : ℚ))).toNat 1
    sorted.getD (target - 1) 0

/-- `History::histogram_over` (src/history.rs lines 36–47) and
`Forecast::histogram_over` (src/forecast_ext.rs lines 12–24), which share
their logic: record `(rate * 1000.) as u64` for every series item whose
`start` lies in some interval (`Range::contains`: `start ≤ x < end`).  A
series item is a `(start, rate)` pair; for a `History` the iteration order
is the `BTreeMap` key order, but the histogram is a multiset so any order
is faithful. -/
def histogram_over (series : List (ℤ × ℚ)) (intervals : List (ℤ × ℤ)) :
    List ℕ :=
  (series.filter fun m =>
      intervals.any fun iv => decide (iv.1 ≤ m.1) && decide (m.1 < iv.2)).map
    fun m => toU64 m.2

/-- The `Moer` of the `sgip_signal` crate, restricted to the fields the
core reads (`region` dropped). -/
structure Moer where
  start : ℤ
  rate : ℚ
  duration : ℤ
deriving Repr, DecidableEq

/-- `History::at` from `src/history.rs` (lines 20–34).  The `BTreeMap` is
modelled as its entry list in strictly increasing key order (theorem
hypotheses state the sortedness); `before` is
`range((Unbounded, Included(time))).rev().next()`, the greatest key at most
`time`, and `after` is `range((Excluded(time), Unbounded)).next()`, the
least key strictly greater. -/
def history_at (data : List (ℤ × ℚ)) (time : ℤ) : Option Moer :=
  match (data.filter fun p => decide (p.1 ≤ time)).getLast?,
      data.find? fun p => decide (time < p.1) with
  | some (s, r), some (e, _) => some ⟨s, r, e - s⟩
  | _, _ => none

/-- The transient `Goal` of `src/controller.rs` (lines 9–13); the borrowed
`config` reference is passed explicitly where needed. -/
structure Goal where
  time : ℤ
  charge : ℚ
deriving Repr, DecidableEq

/-- `Goal::available_charging_hours` (src/controller.rs lines 25–30): the
sum over `allowed_times_during(now..goal.time)` of the interval lengths in
hours (`num_hours_f64` is exact seconds divided by 3600).  `none` models
the `and_time(..).unwrap()` panic inside the interval iterator. -/
def available_charging_hours (tz : Tz) (P : Charging) (now t : ℤ) :
    Option ℚ :=
  (allowed_times_during tz P now t).map fun l =>
    (l.map fun iv => ((iv.2 - iv.1 : ℤ) : ℚ) / 3600).sum

/-- `Goal::required_charging_proportion` (src/controller.rs lines 32–36):
`((charge - soc) * capacity_kwh / charge_rate_kw) / available_hours`.  The
result is a `WithTop ℚ`: `⊤` models the IEEE `+∞` of a division of the
(positive, on the filtered goals with a positive capacity and rate)
numerator by `0.0`. -/
def required_charging_proportion (P : Charging) (goalCharge soc avail : ℚ) :
    WithTop ℚ :=
  if avail = 0 then ⊤
  else ((goalCharge - soc) * P.capacity_kwh / P.charge_rate_kw / avail : ℚ)

/-- Structural effectful map over `Option` (the analogue of collecting an
iterator of fallible items): `none` as soon as `f` fails on an element. -/
def traverseO (f : α → Option β) : List α → Option (List β)
  | [] => some []
  | a :: l => do
    let b ← f a
    let r ← traverseO f l
    some (b :: r)

/-- The candidate goal list of `can_charge` (src/controller.rs lines
60–91): the flex goal (`now + flex_charge_hours` hours, charge `1.0`)
followed by today's and tomorrow's daily goals, filtered to
`goal.time > now && goal.charge > soc`.  Collecting the iterator chain
evaluates `date.and_time(*time).unwrap()` for every daily goal, so any
failing conversion panics (`none`). -/
def candidate_goals (tz : Tz) (P : Charging) (now : ℤ) (soc : ℚ) :
    Option (List Goal) := do
  let today := tz.localDay now
  let todayGoals ← traverseO (fun g =>
    (tz.fromLocal today g.1).map fun u => Goal.mk u g.2) P.daily_goals
  let tomorrowGoals ← traverseO (fun g =>
    (tz.fromLocal (today + 1) g.1).map fun u => Goal.mk u g.2) P.daily_goals
  let flexGoal : Goal := ⟨now + 3600 * P.flex_charge_hours, 1⟩
  some ((flexGoal :: (todayGoals ++ tomorrowGoals)).filter fun g =>
    decide (now < g.time) && decide (soc < g.charge))

/-- The goals of the filtered list paired with their required charging
proportions.  In the source these are computed inside the `sort_by`
comparator (every element of a list of length ≥ 2 is compared at least
once) and, for the selected goal, again at lines 104–105, so a panic in
`available_charging_hours` of any listed goal is observable exactly as
here. -/
def goal_reqs (tz : Tz) (P : Charging) (now : ℤ) (soc : ℚ)
    (gs : List Goal) : Option (List (Goal × WithTop ℚ)) :=
  traverseO (fun g => (available_charging_hours tz P now g.time).map fun av =>
    (g, required_charging_proportion P g.charge soc av)) gs

/-- The `goals.sort_by(..); goals.pop().expect("must have at least one
goal")` selection (src/controller.rs lines 94–101): a stable ascending
sort followed by popping the last element returns the last element of the
list attaining the maximal required proportion, embedded directly as that
fold; `none` models the `expect` panic on an empty list. -/
def select_goal : List (Goal × WithTop ℚ) → Option (Goal × WithTop ℚ)
  | [] => none
  | x :: xs => some (xs.foldl (fun best y => if best.2 ≤ y.2 then y else best) x)

/-- `Charging::can_charge` from `src/controller.rs` (lines 42–168).
`currentRate` is `current.rate`, the only field of the current `Moer` the
function reads; `history` is the `BTreeMap` entry list of the `History`;
`forecast` is the `(start, rate)` list of the forecast's moers.  Returns
`none` when the source panics. -/
def can_charge (tz : Tz) (P : Charging) (now : ℤ) (soc : ℚ)
    (history : List (ℤ × ℚ)) (currentRate : ℚ) (forecast : List (ℤ × ℚ)) :
    Option (Bool × ℤ) :=
  if !allowed_at tz P now then some (false, -1)
  else if P.max_charge ≤ soc then some (false, -1)
  else do
    let gs ← candidate_goals tz P now soc
    let grs ← goal_reqs tz P now soc gs
    let sel ← select_goal grs
    let lookahead ← allowed_times_during tz P now sel.1.time
    let lookback := ([86400, 172800] : List ℤ).flatMap fun offset =>
      lookahead.map fun iv => (iv.1 - offset, iv.2 - offset)
    let emissions := histogram_over history lookback ++
      histogram_over forecast lookahead ++ [toU64 currentRate]
    let limit := value_at_quantile emissions (sel.2.untop' 1)
    some (decide (toU64 currentRate ≤ limit), toI64 limit)

/-- A row of the backtest simulator output CSV: the tick time, the
emissions rate at the tick, and the four synthetic SoCs with the emissions
limit each decision used. -/
structure SimRecord where
  time : ℤ
  s10 : ℚ
  s30 : ℚ
  s50 : ℚ
  s70 : ℚ
  emissions : ℕ
  s10_limit : ℤ
  s30_limit : ℤ
  s50_limit : ℤ
  s70_limit : ℤ
deriving Repr, DecidableEq

/-- Modelled from the spec: the simulator's forecast table lookup
("latest-generated-at-or-before") — the `Simulator` revision matching §4.5
of the spec is not among the source files (src/main.rs calls
`Simulator::new(config, start)`, while src/simulator.rs holds an older,
incompatible revision).  The table is the list of
`(generated_at, moers)` pairs in increasing `generated_at` order. -/
def latest_forecast (fcs : List (ℤ × List (ℤ × ℚ))) (now : ℤ) :
    Option (List (ℤ × ℚ)) :=
  ((fcs.filter fun p => decide (p.1 ≤ now)).getLast?).map Prod.snd

/-- Modelled from the spec: one 5-minute simulator step at `now` (§4.5):
look up the MOER at `now` from history and the most recent forecast
generated at or before `now` (a missing lookup aborts the backtest day,
§7); call `decide` (= `can_charge`) for each SoC; if `true`, increment
that SoC by `charge_rate_kw * (5/60) / capacity_kwh`; record a row. -/
def sim_step (tz : Tz) (P : Charging) (hist : List (ℤ × ℚ))
    (fcs : List (ℤ × List (ℤ × ℚ))) (now : ℤ) (r : SimRecord) :
    Option SimRecord := do
  let current ← history_at hist now
  let forecast ← latest_forecast fcs now
  let d10 ← can_charge tz P now r.s10 hist current.rate forecast
  let d30 ← can_charge tz P now r.s30 hist current.rate forecast
  let d50 ← can_charge tz P now r.s50 hist current.rate forecast
  let d70 ← can_charge tz P now r.s70 hist current.rate forecast
  let delta := P.charge_rate_kw * (5 / 60) / P.capacity_kwh
  some { time := now
         s10 := r.s10 + (if d10.1 then delta else 0)
         s30 := r.s30 + (if d30.1 then delta else 0)
         s50 := r.s50 + (if d50.1 then delta else 0)
         s70 := r.s70 + (if d70.1 then delta else 0)
         emissions := toU64 current.rate
         s10_limit := d10.2
         s30_limit := d30.2
         s50_limit := d50.2
         s70_limit := d70.2 }

/-- Modelled from the spec: the simulator tick loop, producing the current
record followed by the records of the remaining `n` ticks, each 300
seconds after the previous one. -/
def sim_run_aux (tz : Tz) (P : Charging) (hist : List (ℤ × ℚ))
    (fcs : List (ℤ × List (ℤ × ℚ))) : ℕ → SimRecord → Option (List SimRecord)
  | 0, r => some [r]
  | n + 1, r => do
    let r' ← sim_step tz P hist fcs (r.time + 300) r
    let rest ← sim_run_aux tz P hist fcs n r'
    some (r :: rest)

/-- Modelled from the spec: one backtest day (§4.5): four synthetic SoCs
initialised to 0.10/0.30/0.50/0.70, one row per 5-minute tick from `start`
through `start + flex_charge_hours` (hence `12 * flex_charge_hours` steps
after the initial row; the initial row carries zero emissions and limits). -/
def sim_run (tz : Tz) (P : Charging) (hist : List (ℤ × ℚ))
    (fcs : List (ℤ × List (ℤ × ℚ))) (start : ℤ) : Option (List SimRecord) :=
  sim_run_aux tz P hist fcs (12 * P.flex_charge_hours).toNat
    { time := start, s10 := 1/10, s30 := 3/10, s50 := 1/2, s70 := 7/10,
      emissions := 0, s10_limit := 0, s30_limit := 0, s50_limit := 0,
      s70_limit := 0 }

/-- The `simulator` subcommand driver of `src/main.rs` (lines 149–175):
for `days_ago in 0..min(backtest_days, 21)`, start at local midnight of
the local date of `now - (4 + days_ago)` days and run one backtest day,
writing one CSV per completed day (a failed day panics via `.unwrap()`,
modelled by `none`).  The `Simulator` construction itself is modelled from
the spec (see `sim_run`); `nowRun` fixes the `Utc::now()` of the loop. -/
def simulator_main (tz : Tz) (P : Charging) (hist : List (ℤ × ℚ))
    (fcs : List (ℤ × List (ℤ × ℚ))) (nowRun : ℤ) (backtestDays : ℕ) :
    Option (List (List SimRecord)) :=
  traverseO (fun (daysAgo : ℕ) => do
      let startDay := tz.localDay (nowRun - 86400 * (4 + (daysAgo : ℤ)))
      let start ← tz.fromLocal startDay 0
      sim_run tz P hist fcs start)
    (List.range (min backtestDays 21))

/-- The conjunction of invariants that `validate` actually enforces. -/
def ValidatedInv (P : Charging) : Prop :=
  0 ≤ P.max_charge ∧ P.max_charge < 1 ∧
  0 ≤ P.flex_charge_hours ∧ P.flex_charge_hours < 168 ∧
  (∀ g ∈ P.daily_goals, 0 ≤ g.2 ∧ g.2 < 1) ∧
  P.allowed_times ≠ [] ∧
  (∀ se ∈ P.allowed_times, se.1 < se.2) ∧
  List.Chain' (fun x y => x.2 < y.1) P.allowed_times

/-- Membership of a UTC instant in the recurrence of the policy's
allowed-times pairs over the local days at or after `dmin`. -/
def RecMemFrom (tz : Tz) (P : Charging) (dmin u : ℤ) : Prop :=
  ∃ d, dmin ≤ d ∧ ∃ se ∈ P.allowed_times, ∃ us ue,
    tz.fromLocal d se.1 = some us ∧ tz.fromLocal d se.2 = some ue ∧
    us ≤ u ∧ u < ue

/-- The working histogram of the main path of `can_charge`: history samples
over the day-shifted lookback intervals, forecast samples over the
lookahead intervals, and the single current-rate sample. -/
def main_histogram (hist : List (ℤ × ℚ)) (cur : ℚ) (fc : List (ℤ × ℚ))
    (la : List (ℤ × ℤ)) : List ℕ :=
  histogram_over hist (([86400, 172800] : List ℤ).flatMap fun offset =>
    la.map fun iv => (iv.1 - offset, iv.2 - offset)) ++
  histogram_over fc la ++ [toU64 cur]

/-- Example policy: the default configuration of `src/config.rs`
(allowed times 00:00–15:00, daily goals 08:00/0.33 and 15:00/0.66). -/
def examplePolicy : Charging :=
  ⟨[(0, 54000)], 8, 75, 17/20, 24, [(28800, 33/100), (54000, 33/50)]⟩

/-- Example policy with no daily goals. -/
def flexOnlyPolicy : Charging := ⟨[(0, 54000)], 8, 75, 17/20, 24, []⟩

/-- Example policy with `flex_charge_hours = 0` (accepted by `validate`). -/
def zeroFlexPolicy : Charging := ⟨[(0, 54000)], 8, 75, 17/20, 0, []⟩

/-- Example policy whose allowed window 02:30–03:30 crosses the DST gap of
`gapTz` on its day 0. -/
def gapPolicy : Charging := ⟨[(9000, 12600)], 8, 75, 17/20, 24, []⟩

/-- Example policy with `capacity_kwh = 0`. -/
def zeroCapacityPolicy : Charging := ⟨[(0, 54000)], 8, 0, 17/20, 24, []⟩

/-- Example policy for the simulator witness: window 00:00–23:59,
`max_charge = 0.5`, one flex hour. -/
def simPolicy : Charging := ⟨[(0, 86340)], 8, 75, 1/2, 1, []⟩

/-- The union property asserted by the specification for
`allowed_times_during` on `[a, b)`: the points of the emitted intervals
are exactly the points of `[a, b)` lying in the recurrence of the
allowed-times pairs over the local days at or after the local day of
`a`. -/
def unionClaimC3 (tz : Tz) (P : Charging) (a b : ℤ) : Prop :=
  ∀ l, allowed_times_during tz P a b = some l →
    ∀ u, (∃ iv ∈ l, iv.1 ≤ u ∧ u < iv.2) ↔
      (a ≤ u ∧ u < b ∧ RecMemFrom tz P (tz.localDay a) u)

/-- History data for the simulator witness: a constant 0.2 kg/kWh rate
recorded far in the past and far in the future, so that `History::at`
succeeds at every simulated tick. -/
def simHist : List (ℤ × ℚ) := [(-1000000000, 1/5), (1000000000, 1/5)]

/-- Forecast table for the simulator witness: a single empty forecast
generated far in the past. -/
def simFcs : List (ℤ × List (ℤ × ℚ)) := [(-1000000000, [])]

/-! ### Helper lemmas -/

theorem floorQ_eq (q : ℚ) : floorQ q = ⌊q⌋ := by
  rw [floorQ, Rat.floor_def]

theorem ceilQ_eq (q : ℚ) : ceilQ q = ⌈q⌉ := by
  have h : (-q).num / ((-q).den : ℤ) = ⌊-q⌋ := (Rat.floor_def).symm
  rw [ceilQ, h, Int.floor_neg, neg_neg]

theorem value_at_quantile_mem (s : List ℕ) (q : ℚ) (hs : s ≠ []) :
    value_at_quantile s q ∈ s := by
  unfold value_at_quantile
  rw [if_neg (by simpa [List.isEmpty_iff] using hs)]
  have hperm := List.perm_insertionSort (· ≤ ·) s
  have hlen : (s.insertionSort (· ≤ ·)).length = s.length := hperm.length_eq
  have h1 : 1 ≤ s.length := List.length_pos.mpr hs
  have hle : max (ceilQ (min q 1 * (s.length : ℚ))).toNat 1 ≤ s.length := by
    have hmin : min q 1 * (s.length : ℚ) ≤ (s.length : ℚ) := by
      calc min q 1 * (s.length : ℚ) ≤ 1 * (s.length : ℚ) :=
            mul_le_mul_of_nonneg_right (min_le_right q 1) (by positivity)
        _ = (s.length : ℚ) := one_mul _
    have hc : ceilQ (min q 1 * (s.length : ℚ)) ≤ (s.length : ℤ) := by
      rw [ceilQ_eq]
      calc ⌈min q 1 * (s.length : ℚ)⌉ ≤ ⌈((s.length : ℤ) : ℚ)⌉ :=
            Int.ceil_mono (by exact_mod_cast hmin)
        _ = (s.length : ℤ) := Int.ceil_intCast _
    omega
  have hidx : max (ceilQ (min q 1 * (s.length : ℚ))).toNat 1 - 1 <
      (s.insertionSort (· ≤ ·)).length := by omega
  rw [List.getD_eq_getElem _ _ hidx]
  exact hperm.mem_iff.mp (List.getElem_mem hidx)

theorem value_at_quantile_le_of_one_le (s : List ℕ) (q : ℚ) (h1q : 1 ≤ q)
    (x : ℕ) (hx : x ∈ s) : x ≤ value_at_quantile s q := by
  have hs : s ≠ [] := List.ne_nil_of_mem hx
  unfold value_at_quantile
  rw [if_neg (by simpa [List.isEmpty_iff] using hs)]
  have hperm := List.perm_insertionSort (· ≤ ·) s
  have hlen : (s.insertionSort (· ≤ ·)).length = s.length := hperm.length_eq
  have h1 : 1 ≤ s.length := List.length_pos.mpr hs
  have htarget : max (ceilQ (min q 1 * (s.length : ℚ))).toNat 1 = s.length := by
    rw [min_eq_right h1q, one_mul, ceilQ_eq]
    have : (⌈((s.length : ℕ) : ℚ)⌉ : ℤ) = (s.length : ℤ) := Int.ceil_natCast _
    omega
  rw [htarget]
  have hsorted : (s.insertionSort (· ≤ ·)).Sorted (· ≤ ·) :=
    List.sorted_insertionSort (· ≤ ·) s
  have hx' : x ∈ s.insertionSort (· ≤ ·) := hperm.mem_iff.mpr hx
  obtain ⟨i, hi⟩ := List.mem_iff_get.mp hx'
  have hidx : s.length - 1 < (s.insertionSort (· ≤ ·)).length := by omega
  rw [List.getD_eq_getElem _ _ hidx]
  have hij : (i : ℕ) ≤ s.length - 1 := by
    have := i.isLt; omega
  calc x = (s.insertionSort (· ≤ ·)).get i := hi.symm
    _ ≤ (s.insertionSort (· ≤ ·))[s.length - 1] :=
        List.Sorted.rel_get_of_le hsorted (by exact hij)

theorem value_at_quantile_clamp (s : List ℕ) (q : ℚ) :
    value_at_quantile s q = value_at_quantile s (max 0 (min 1 q)) := by
  unfold value_at_quantile
  rcases le_or_lt 0 q with hq | hq
  · have harg : min q 1 = min (max 0 (min 1 q)) 1 := by
      rcases le_or_lt q 1 with h | h
      · rw [min_eq_left h, min_comm (1 : ℚ) q, min_eq_left h, max_eq_right hq,
          min_eq_left h]
      · rw [min_eq_right h.le, min_eq_left h.le]
        norm_num
    rw [harg]
  · have h1 : ceilQ (min q 1 * (s.length : ℚ)) ≤ 0 := by
      rw [ceilQ_eq]
      have hm : min q 1 * (s.length : ℚ) ≤ 0 :=
        mul_nonpos_of_nonpos_of_nonneg (le_trans (min_le_left q 1) hq.le)
          (by positivity)
      exact Int.ceil_le.mpr (by simpa using hm)
    have h2 : max (0 : ℚ) (min 1 q) = 0 := by
      rw [min_eq_right (show q ≤ 1 by linarith),
        max_eq_left (show q ≤ (0 : ℚ) by linarith)]
    rw [h2]
    have h4 : ceilQ ((min (0 : ℚ) 1) * (s.length : ℚ)) = 0 := by
      rw [min_eq_left zero_le_one, zero_mul, ceilQ_eq, Int.ceil_zero]
    have h5 : (ceilQ (min q 1 * (s.length : ℚ))).toNat = 0 := by omega
    rw [h4, h5]
    norm_num

theorem mem_histogram_over {x : ℕ} {series : List (ℤ × ℚ)}
    {intervals : List (ℤ × ℤ)} (h : x ∈ histogram_over series intervals) :
    ∃ m ∈ series, x = toU64 m.2 := by
  simp only [histogram_over, List.mem_map, List.mem_filter] at h
  obtain ⟨m, ⟨hm, _⟩, hxm⟩ := h
  exact ⟨m, hm, hxm.symm⟩

theorem toI64_nonneg {v : ℕ} (h : v < 2 ^ 63) : 0 ≤ toI64 v := by
  rw [toI64, if_pos h]; positivity

theorem zip_tail_forall_iff_chain' (l : List (ℤ × ℤ)) :
    (∀ x ∈ l.zip l.tail, x.1.2 < x.2.1) ↔
      List.Chain' (fun x y => x.2 < y.1) l := by
  induction l with
  | nil => simp
  | cons a t ih =>
    cases t with
    | nil => simp
    | cons b t' =>
      simp only [List.tail_cons, List.zip_cons_cons, List.mem_cons,
        List.chain'_cons, forall_eq_or_imp]
      exact and_congr Iff.rfl ih

theorem validate_iff (P : Charging) : validate P = true ↔ ValidatedInv P := by
  rw [validate, ValidatedInv]
  simp only [Bool.and_eq_true, decide_eq_true_eq, List.all_eq_true,
    Bool.not_eq_true', and_assoc]
  constructor
  · rintro ⟨h1, h2, h3, h4, h5, h6, h7, h8⟩
    exact ⟨h1, h2, h3, by omega, h5, by intro hnil; rw [hnil] at h6; simp at h6,
      h7, (zip_tail_forall_iff_chain' _).mp h8⟩
  · rintro ⟨h1, h2, h3, h4, h5, h6, h7, h8⟩
    refine ⟨h1, h2, h3, by omega, h5, ?_, h7,
      (zip_tail_forall_iff_chain' _).mpr h8⟩
    cases hemp : P.allowed_times.isEmpty
    · rfl
    · exact absurd (List.isEmpty_iff.mp hemp) h6

theorem pairwise_of_chain'_lt (l : List (ℤ × ℤ))
    (h1 : ∀ p ∈ l, p.1 < p.2)
    (h2 : List.Chain' (fun x y => x.2 < y.1) l) :
    List.Pairwise (fun x y => x.2 < y.1) l := by
  induction l with
  | nil => exact List.Pairwise.nil
  | cons a t ih =>
    have ht : List.Chain' (fun x y => x.2 < y.1) t := h2.tail
    have hpw : List.Pairwise (fun x y => x.2 < y.1) t :=
      ih (fun p hp => h1 p (List.mem_cons_of_mem a hp)) ht
    refine List.pairwise_cons.mpr ⟨?_, hpw⟩
    intro y hy
    cases t with
    | nil => cases hy
    | cons b t' =>
      have hab : a.2 < b.1 := (List.chain'_cons.mp h2).1
      rcases List.mem_cons.mp hy with rfl | hy'
      · exact hab
      · have hb2 : b.2 < y.1 := (List.pairwise_cons.mp hpw).1 y hy'
        have hb12 : b.1 < b.2 := h1 b (by simp)
        linarith

/-- A UTC instant obtained from a local time on a day after the local day
of `a` lies strictly after `a`. -/
theorem window_after_range_start {tz : Tz} {a d s u : ℤ}
    (hd : tz.localDay a < d) (h : tz.fromLocal d s = some u) : a < u := by
  by_contra hle
  push_neg at hle
  have hmono := tz.localDay_mono hle
  rw [tz.fromLocal_day d s u h] at hmono
  omega

/-- Behaviour of one day's worth of `allowed_times_during`: provenance of
the emitted intervals, the union of their points, the meaning of the stop
flag, and their ordering. -/
theorem processPairs_spec (tz : Tz) (a b d : ℤ) (hd : tz.localDay a < d) :
    ∀ (pairs : List (ℤ × ℤ)),
      (∀ p ∈ pairs, p.1 < p.2) →
      List.Pairwise (fun x y => x.2 < y.1) pairs →
      ∀ l st, processPairs tz d (a, b) pairs = some (l, st) →
      ((∀ iv ∈ l, ∃ se ∈ pairs, ∃ us ue, tz.fromLocal d se.1 = some us ∧
          tz.fromLocal d se.2 = some ue ∧ iv = (us, min ue b) ∧ us ≤ b) ∧
       (∀ u, (∃ iv ∈ l, iv.1 ≤ u ∧ u < iv.2) ↔
          (a ≤ u ∧ u < b ∧ ∃ se ∈ pairs, ∃ us ue,
            tz.fromLocal d se.1 = some us ∧ tz.fromLocal d se.2 = some ue ∧
            us ≤ u ∧ u < ue)) ∧
       (st = true → ∃ se ∈ pairs, ∃ us, tz.fromLocal d se.1 = some us ∧ b < us) ∧
       List.Pairwise (fun iv iv' => iv.2 ≤ iv'.1) l) := by
  intro pairs
  induction pairs with
  | nil =>
    intro _ _ l st hp
    simp only [processPairs, Option.some.injEq, Prod.mk.injEq] at hp
    obtain ⟨rfl, rfl⟩ := hp
    refine ⟨by simp, fun u => ?_, by simp, List.Pairwise.nil⟩
    simp
  | cons head rest ih =>
    obtain ⟨s, e⟩ := head
    intro hlt hpw l st hp
    have hlt_rest : ∀ p ∈ rest, p.1 < p.2 := fun p hp' =>
      hlt p (List.mem_cons_of_mem _ hp')
    obtain ⟨hhead, hpw_rest⟩ := List.pairwise_cons.mp hpw
    have hse : s < e := hlt (s, e) (List.mem_cons_self _ _)
    simp only [processPairs] at hp
    rcases hfs : tz.fromLocal d s with _ | us
    · rw [hfs] at hp; exact Option.noConfusion hp
    rcases hfe : tz.fromLocal d e with _ | ue
    · rw [hfs, hfe] at hp; exact Option.noConfusion hp
    rw [hfs, hfe] at hp
    dsimp only at hp
    have haus : a < us := window_after_range_start hd hfs
    have haue : a < ue := window_after_range_start hd hfe
    have husue : us < ue :=
      tz.fromLocal_mono hfs hfe (Or.inr ⟨rfl, hse⟩)
    rcases hint : intersect (us, ue) (a, b) with _ | iv
    · -- map_while stop
      rw [hint] at hp
      simp only [Option.some.injEq, Prod.mk.injEq] at hp
      obtain ⟨rfl, rfl⟩ := hp
      rw [intersect] at hint
      split at hint
      case isFalse => exact Option.noConfusion hint
      case isTrue hcond =>
      have hbus : b < us := by
        rcases hcond with h | h
        · exact absurd h (by simp; omega)
        · simpa using h
      refine ⟨by simp, fun u => ?_, fun _ =>
        ⟨(s, e), List.mem_cons_self _ _, us, hfs, hbus⟩, List.Pairwise.nil⟩
      simp only [List.not_mem_nil, false_and, exists_false, false_iff]
      rintro ⟨hau, hub, se', hse', us', ue', hfs', hfe', husu, huue⟩
      rcases List.mem_cons.mp hse' with rfl | hmem
      · rw [hfs'] at hfs; injection hfs with hfs; omega
      · have hs' : s < se'.1 := lt_trans hse (hhead se' hmem)
        have : us < us' := tz.fromLocal_mono hfs hfs' (Or.inr ⟨rfl, hs'⟩)
        omega
    · -- emitted interval, continue
      rw [hint] at hp
      rcases hrest : processPairs tz d (a, b) rest with _ | p
      · rw [hrest] at hp; exact Option.noConfusion hp
      rw [hrest] at hp
      simp only [Option.map_some', Option.some.injEq, Prod.mk.injEq] at hp
      obtain ⟨rfl, rfl⟩ := hp
      rw [intersect] at hint
      split at hint
      case isTrue => exact Option.noConfusion hint
      case isFalse hcond =>
      push_neg at hcond
      obtain ⟨hcond1, hcond2⟩ := hcond
      have hcond1' : a ≤ ue := by simpa using hcond1
      have hcond2' : us ≤ b := by simpa using hcond2
      injection hint with hint
      have hiv : iv = (us, min ue b) := by
        rw [← hint]; simp [max_eq_left haus.le]
      subst hiv
      obtain ⟨IH1, IH2, IH3, IH4⟩ :=
        ih hlt_rest hpw_rest p.1 p.2 (by rw [hrest])
      refine ⟨?_, ?_, ?_, ?_⟩
      · intro iv' hiv'
        rcases List.mem_cons.mp hiv' with rfl | hmem
        · exact ⟨(s, e), List.mem_cons_self _ _, us, ue, hfs, hfe, rfl, hcond2'⟩
        · obtain ⟨se', hse', rest'⟩ := IH1 iv' hmem
          exact ⟨se', List.mem_cons_of_mem _ hse', rest'⟩
      · intro u
        constructor
        · rintro ⟨iv', hiv', hu1, hu2⟩
          rcases List.mem_cons.mp hiv' with rfl | hmem
          · simp only at hu1 hu2
            have hub : u < b := lt_of_lt_of_le hu2 (min_le_right _ _)
            have huue : u < ue := lt_of_lt_of_le hu2 (min_le_left _ _)
            exact ⟨by omega, hub, (s, e), List.mem_cons_self _ _, us, ue,
              hfs, hfe, hu1, huue⟩
          · obtain ⟨hau, hub, se', hse', w⟩ := (IH2 u).mp ⟨iv', hmem, hu1, hu2⟩
            exact ⟨hau, hub, se', List.mem_cons_of_mem _ hse', w⟩
        · rintro ⟨hau, hub, se', hse', us', ue', hfs', hfe', husu, huue⟩
          rcases List.mem_cons.mp hse' with rfl | hmem
          · rw [hfs'] at hfs; injection hfs with hq1
            rw [hfe'] at hfe; injection hfe with hq2
            exact ⟨(us, min ue b), List.mem_cons_self _ _, by omega, by
              simp only; omega⟩
          · obtain ⟨iv', hiv', w⟩ := (IH2 u).mpr
              ⟨hau, hub, se', hmem, us', ue', hfs', hfe', husu, huue⟩
            exact ⟨iv', List.mem_cons_of_mem _ hiv', w⟩
      · intro hst
        obtain ⟨se', hse', us', hfs', hb⟩ := IH3 hst
        exact ⟨se', List.mem_cons_of_mem _ hse', us', hfs', hb⟩
      · refine List.pairwise_cons.mpr ⟨?_, IH4⟩
        intro iv' hiv'
        obtain ⟨se', hse', us', ue', hfs', hfe', hiv'eq, _⟩ := IH1 iv' hiv'
        have he' : e < se'.1 := hhead se' hse'
        have : ue < us' := tz.fromLocal_mono hfe hfs' (Or.inr ⟨rfl, he'⟩)
        subst hiv'eq
        simp only
        omega

/-- Behaviour of the fuelled day iteration of `allowed_times_during`:
provenance, union of the points of the emitted intervals over the days
`[d, d + n)`, and ordering. -/
theorem processDays_spec (tz : Tz) (P : Charging) (a b : ℤ)
    (hlt : ∀ p ∈ P.allowed_times, p.1 < p.2)
    (hpw : List.Pairwise (fun x y => x.2 < y.1) P.allowed_times) :
    ∀ (n : ℕ) (d : ℤ) (L : List (ℤ × ℤ)), tz.localDay a < d →
      processDays tz P (a, b) n d = some L →
      ((∀ iv ∈ L, ∃ d', d ≤ d' ∧ ∃ se ∈ P.allowed_times, ∃ us ue,
          tz.fromLocal d' se.1 = some us ∧ tz.fromLocal d' se.2 = some ue ∧
          iv = (us, min ue b) ∧ us ≤ b) ∧
       (∀ u, (∃ iv ∈ L, iv.1 ≤ u ∧ u < iv.2) ↔
          (a ≤ u ∧ u < b ∧ ∃ d', d ≤ d' ∧ d' < d + (n : ℤ) ∧
            ∃ se ∈ P.allowed_times, ∃ us ue,
              tz.fromLocal d' se.1 = some us ∧ tz.fromLocal d' se.2 = some ue ∧
              us ≤ u ∧ u < ue)) ∧
       List.Pairwise (fun iv iv' => iv.2 ≤ iv'.1) L) := by
  intro n
  induction n with
  | zero =>
    intro d L _ hp
    simp only [processDays, Option.some.injEq] at hp
    subst hp
    refine ⟨by simp, fun u => ?_, List.Pairwise.nil⟩
    simp only [List.not_mem_nil, false_and, exists_false, false_iff]
    rintro ⟨_, _, d', hdd', hlt', _⟩
    omega
  | succ n ihn =>
    intro d L hd hp
    simp only [processDays] at hp
    rcases hpp : processPairs tz d (a, b) P.allowed_times with _ | pq
    · rw [hpp] at hp; exact Option.noConfusion hp
    rw [hpp] at hp
    obtain ⟨l, st⟩ := pq
    obtain ⟨PP1, PP2, PP3, PP4⟩ := processPairs_spec tz a b d hd
      P.allowed_times hlt hpw l st hpp
    rcases st with _ | _
    · -- no stop on day d: continue with the following days
      dsimp only at hp
      rcases hrest : processDays tz P (a, b) n (d + 1) with _ | L'
      · rw [hrest] at hp; exact Option.noConfusion hp
      rw [hrest] at hp
      simp only [Option.some.injEq] at hp
      subst hp
      obtain ⟨IH1, IH2, IH3⟩ := ihn (d + 1) L' (by omega) hrest
      refine ⟨?_, ?_, ?_⟩
      · intro iv hiv
        rcases List.mem_append.mp hiv with hmem | hmem
        · obtain ⟨se, hse, w⟩ := PP1 iv hmem
          exact ⟨d, le_refl d, se, hse, w⟩
        · obtain ⟨d', hdd', w⟩ := IH1 iv hmem
          exact ⟨d', by omega, w⟩
      · intro u
        constructor
        · rintro ⟨iv, hiv, hu⟩
          rcases List.mem_append.mp hiv with hmem | hmem
          · obtain ⟨hau, hub, se, hse, w⟩ := (PP2 u).mp ⟨iv, hmem, hu⟩
            exact ⟨hau, hub, d, le_refl d, by push_cast; omega, se, hse, w⟩
          · obtain ⟨hau, hub, d', hdd', hdn, w⟩ := (IH2 u).mp ⟨iv, hmem, hu⟩
            exact ⟨hau, hub, d', by omega, by push_cast at hdn ⊢; omega, w⟩
        · rintro ⟨hau, hub, d', hdd', hdn, se, hse, w⟩
          rcases eq_or_lt_of_le hdd' with rfl | hdd''
          · obtain ⟨iv, hiv, hu⟩ := (PP2 u).mpr ⟨hau, hub, se, hse, w⟩
            exact ⟨iv, List.mem_append_left _ hiv, hu⟩
          · obtain ⟨iv, hiv, hu⟩ := (IH2 u).mpr
              ⟨hau, hub, d', by omega, by push_cast at hdn ⊢; omega, se, hse, w⟩
            exact ⟨iv, List.mem_append_right _ hiv, hu⟩
      · refine List.pairwise_append.mpr ⟨PP4, IH3, ?_⟩
        intro iv hiv iv' hiv'
        obtain ⟨se, hse, us, ue, hfs, hfe, hiveq, _⟩ := PP1 iv hiv
        obtain ⟨d', hdd', se', hse', us', ue', hfs', hfe', hiv'eq, _⟩ :=
          IH1 iv' hiv'
        have : ue < us' := tz.fromLocal_mono hfe hfs' (Or.inl (by omega))
        subst hiveq; subst hiv'eq
        simp only
        omega
    · -- stop on day d
      dsimp only at hp
      simp only [Option.some.injEq] at hp
      subst hp
      refine ⟨?_, ?_, PP4⟩
      · intro iv hiv
        obtain ⟨se, hse, w⟩ := PP1 iv hiv
        exact ⟨d, le_refl d, se, hse, w⟩
      · intro u
        constructor
        · rintro ⟨iv, hiv, hu⟩
          obtain ⟨hau, hub, se, hse, w⟩ := (PP2 u).mp ⟨iv, hiv, hu⟩
          exact ⟨hau, hub, d, le_refl d, by push_cast; omega, se, hse, w⟩
        · rintro ⟨hau, hub, d', hdd', hdn, se, hse, us', ue', hfs', hfe',
            husu, huue⟩
          rcases eq_or_lt_of_le hdd' with rfl | hdd''
          · exact (PP2 u).mpr
              ⟨hau, hub, se, hse, us', ue', hfs', hfe', husu, huue⟩
          · obtain ⟨se0, _, us0, hfs0, hb0⟩ := PP3 rfl
            have : us0 < us' := tz.fromLocal_mono hfs0 hfs' (Or.inl (by omega))
            omega

/-- Master specification of `allowed_times_during` on a validated policy:
the emitted intervals start strictly after `a`, are contained in `[a, b)`
with nonnegative (possibly zero) length, are ordered and pairwise
disjoint, and their union is the intersection of `[a, b)` with the
recurrence over the local days at or after `localDay a + 1` — the source's
date iterator yields `succ_opt` first and so skips the local day of `a`
itself. -/
theorem allowed_times_during_spec (tz : Tz) (P : Charging) (a b : ℤ)
    (l : List (ℤ × ℤ)) (hval : validate P = true)
    (h : allowed_times_during tz P a b = some l) :
    (∀ iv ∈ l, a < iv.1 ∧ iv.1 ≤ iv.2 ∧ iv.2 ≤ b) ∧
    List.Pairwise (fun iv iv' => iv.2 ≤ iv'.1) l ∧
    (∀ u, (∃ iv ∈ l, iv.1 ≤ u ∧ u < iv.2) ↔
      (a ≤ u ∧ u < b ∧ RecMemFrom tz P (tz.localDay a + 1) u)) := by
  obtain ⟨_, _, _, _, _, _, hlt, hchain⟩ := (validate_iff P).mp hval
  have hpw := pairwise_of_chain'_lt P.allowed_times hlt hchain
  rw [allowed_times_during] at h
  obtain ⟨D1, D2, D3⟩ := processDays_spec tz P a b hlt hpw
    (max (tz.localDay b) (tz.localDay a) + 1 - tz.localDay a).toNat
    (tz.localDay a + 1) l (by omega) h
  have hfuel : ((max (tz.localDay b) (tz.localDay a) + 1 -
      tz.localDay a).toNat : ℤ) =
      max (tz.localDay b) (tz.localDay a) + 1 - tz.localDay a := by omega
  refine ⟨?_, D3, ?_⟩
  · intro iv hiv
    obtain ⟨d', hdd', se, hse, us, ue, hfs, hfe, hiveq, husb⟩ := D1 iv hiv
    have haus : a < us := window_after_range_start (by omega) hfs
    have husue : us < ue :=
      tz.fromLocal_mono hfs hfe (Or.inr ⟨rfl, hlt se hse⟩)
    subst hiveq
    refine ⟨haus, by simp only; omega, by simp only; omega⟩
  · intro u
    rw [D2 u]
    constructor
    · rintro ⟨hau, hub, d', hdd', _, w⟩
      exact ⟨hau, hub, d', hdd', w⟩
    · rintro ⟨hau, hub, d', hdd', se, hse, us, ue, hfs, hfe, husu, huue⟩
      refine ⟨hau, hub, d', hdd', ?_, se, hse, us, ue, hfs, hfe, husu, huue⟩
      have hd'u : d' = tz.localDay us := (tz.fromLocal_day _ _ _ hfs).symm
      have h1 : tz.localDay us ≤ tz.localDay u := tz.localDay_mono husu
      have h2 : tz.localDay u ≤ tz.localDay b := tz.localDay_mono hub.le
      omega

/-- Reduction of `can_charge` on the main path, given the intermediate
results of goal construction and selection. -/
theorem can_charge_main (tz : Tz) (P : Charging) (now : ℤ) (soc : ℚ)
    (hist : List (ℤ × ℚ)) (cur : ℚ) (fc : List (ℤ × ℚ))
    {gs : List Goal} {grs : List (Goal × WithTop ℚ)} {sel : Goal × WithTop ℚ}
    {la : List (ℤ × ℤ)}
    (h1 : allowed_at tz P now = true) (h2 : soc < P.max_charge)
    (hgs : candidate_goals tz P now soc = some gs)
    (hgrs : goal_reqs tz P now soc gs = some grs)
    (hsel : select_goal grs = some sel)
    (hla : allowed_times_during tz P now sel.1.time = some la) :
    can_charge tz P now soc hist cur fc = some
      (decide (toU64 cur ≤
        value_at_quantile (main_histogram hist cur fc la) (sel.2.untop' 1)),
       toI64 (value_at_quantile (main_histogram hist cur fc la)
        (sel.2.untop' 1))) := by
  rw [can_charge, main_histogram]
  simp only [h1, Bool.not_true, Bool.false_eq_true, if_false, h2.not_le,
    if_false, hgs, hgrs, hsel, hla, Option.bind_eq_bind, Option.some_bind]

/-- The two early exits of `can_charge`. -/
theorem can_charge_early (tz : Tz) (P : Charging) (now : ℤ) (soc : ℚ)
    (hist : List (ℤ × ℚ)) (cur : ℚ) (fc : List (ℤ × ℚ))
    (h : allowed_at tz P now = false ∨ P.max_charge ≤ soc) :
    can_charge tz P now soc hist cur fc = some (false, -1) := by
  rcases h with h | h
  · rw [can_charge, h]
    simp
  · rcases hA : allowed_at tz P now
    · rw [can_charge, hA]; simp
    · rw [can_charge, hA]
      simp [h]

/-- A `true` decision is only produced past the early exits. -/
theorem can_charge_true_soc_lt (tz : Tz) (P : Charging) (now : ℤ) (soc : ℚ)
    (hist : List (ℤ × ℚ)) (cur : ℚ) (fc : List (ℤ × ℚ)) (lim : ℤ)
    (h : can_charge tz P now soc hist cur fc = some (true, lim)) :
    soc < P.max_charge := by
  by_contra hge
  push_neg at hge
  rw [can_charge_early tz P now soc hist cur fc (Or.inr hge)] at h
  injection h with h
  exact Bool.noConfusion (congrArg Prod.fst h)

/-- Destructuring of a successful `can_charge` run past the early exits:
the intermediate goal list, requirement list, selection and lookahead all
exist and the result is the main-path value. -/
theorem can_charge_some_main (tz : Tz) (P : Charging) (now : ℤ) (soc : ℚ)
    (hist : List (ℤ × ℚ)) (cur : ℚ) (fc : List (ℤ × ℚ)) (b : Bool) (lim : ℤ)
    (h1 : allowed_at tz P now = true) (h2 : soc < P.max_charge)
    (h : can_charge tz P now soc hist cur fc = some (b, lim)) :
    ∃ gs grs sel la, candidate_goals tz P now soc = some gs ∧
      goal_reqs tz P now soc gs = some grs ∧ select_goal grs = some sel ∧
      allowed_times_during tz P now sel.1.time = some la ∧
      b = decide (toU64 cur ≤
        value_at_quantile (main_histogram hist cur fc la) (sel.2.untop' 1)) ∧
      lim = toI64 (value_at_quantile (main_histogram hist cur fc la)
        (sel.2.untop' 1)) := by
  rw [can_charge] at h
  simp only [h1, Bool.not_true, Bool.false_eq_true, if_false, h2.not_le,
    if_false, Option.bind_eq_bind] at h
  rcases hgs : candidate_goals tz P now soc with _ | gs
  · rw [hgs] at h; exact Option.noConfusion h
  rw [hgs, Option.some_bind] at h
  rcases hgrs : goal_reqs tz P now soc gs with _ | grs
  · rw [hgrs] at h; exact Option.noConfusion h
  rw [hgrs, Option.some_bind] at h
  rcases hsel : select_goal grs with _ | sel
  · rw [hsel] at h; exact Option.noConfusion h
  rw [hsel, Option.some_bind] at h
  rcases hla : allowed_times_during tz P now sel.1.time with _ | la
  · rw [hla] at h; exact Option.noConfusion h
  rw [hla, Option.some_bind] at h
  injection h with h
  refine ⟨gs, grs, sel, la, ?_, ?_, ?_, ?_,
    (congrArg Prod.fst h).symm, by
      rw [← main_histogram] at h
      exact (congrArg Prod.snd h).symm⟩ <;>
    first
      | rfl
      | exact hgs
      | exact hgrs
      | exact hsel
      | exact hla

/-- Elementwise characterisation of a successful `traverseO`. -/
theorem traverseO_spec (f : α → Option β) :
    ∀ (l : List α) (r : List β), traverseO f l = some r →
      r.length = l.length ∧ ∀ x ∈ r, ∃ a ∈ l, f a = some x := by
  intro l
  induction l with
  | nil =>
    intro r h
    simp only [traverseO, Option.some.injEq] at h
    subst h
    simp
  | cons a t ih =>
    intro r h
    simp only [traverseO, Option.bind_eq_bind] at h
    rcases hfa : f a with _ | b
    · rw [hfa] at h; exact Option.noConfusion h
    rw [hfa, Option.some_bind] at h
    rcases hft : traverseO f t with _ | r'
    · rw [hft] at h; exact Option.noConfusion h
    rw [hft, Option.some_bind] at h
    injection h with h
    subst h
    obtain ⟨hlen, hmem⟩ := ih r' hft
    refine ⟨by simp [hlen], ?_⟩
    intro x hx
    rcases List.mem_cons.mp hx with rfl | hx'
    · exact ⟨a, List.mem_cons_self _ _, hfa⟩
    · obtain ⟨a', ha', hfa'⟩ := hmem x hx'
      exact ⟨a', List.mem_cons_of_mem _ ha', hfa'⟩

/-! ### Claim theorems

The Batteries `Rat` arithmetic operations are `@[irreducible]`, which
blocks `decide`-style evaluation of the embedding on concrete rational
inputs; the witnesses below restore default reducibility for them. -/

set_option allowUnsafeReducibility true in
attribute [semireducible] Rat.mul Rat.inv Rat.add Rat.sub


/-- C1: on the main path of `can_charge` (the now instant is allowed, the
SoC is below `max_charge`, and a goal was selected), the returned pair is
`(current_rate ≤ emissions_limit, emissions_limit)` where
`emissions_limit = H.value_at_quantile (clamp req 0 1)`, `req` is the
selected goal's required charging proportion (`+∞` reading as above `1`),
and `H` is the histogram of the history samples over the lookback
intervals plus the forecast samples over the lookahead intervals plus the
single sample `current_rate = (current.rate * 1000) as u64`
(`main_histogram`); the returned limit carries the source's `as i64`
cast.  The positivity of `capacity_kwh` and `charge_rate_kw` (the data
model's invariants, unchecked by `validate`) confines the statement to
the domain on which the `ℚ` model of the required proportion is faithful
to the source's `f64` division. -/
theorem c1_main_path_pair (tz : Tz) (P : Charging) (now : ℤ) (soc : ℚ)
    (hist : List (ℤ × ℚ)) (cur : ℚ) (fc : List (ℤ × ℚ))
    (gs : List Goal) (grs : List (Goal × WithTop ℚ)) (sel : Goal × WithTop ℚ)
    (la : List (ℤ × ℤ))
    (_hcap : 0 < P.capacity_kwh) (_hrate : 0 < P.charge_rate_kw)
    (h1 : allowed_at tz P now = true) (h2 : soc < P.max_charge)
    (hgs : candidate_goals tz P now soc = some gs)
    (hgrs : goal_reqs tz P now soc gs = some grs)
    (hsel : select_goal grs = some sel)
    (hla : allowed_times_during tz P now sel.1.time = some la) :
    can_charge tz P now soc hist cur fc = some
      (decide (toU64 cur ≤
        value_at_quantile (main_histogram hist cur fc la)
          (max 0 (min 1 (sel.2.untop' 1)))),
       toI64 (value_at_quantile (main_histogram hist cur fc la)
          (max 0 (min 1 (sel.2.untop' 1))))) := by
  rw [can_charge_main tz P now soc hist cur fc h1 h2 hgs hgrs hsel hla,
    value_at_quantile_clamp]

set_option maxRecDepth 40000 in
theorem c1_witness :
    can_charge pstTz flexOnlyPolicy 892800 (1/10) [] (1/5) [] = some
      (decide (toU64 (1/5) ≤
        value_at_quantile (main_histogram [] (1/5) [] [(979200, 979200)])
          (max 0 (min 1 (WithTop.untop' 1 (⊤ : WithTop ℚ))))),
       toI64 (value_at_quantile (main_histogram [] (1/5) [] [(979200, 979200)])
          (max 0 (min 1 (WithTop.untop' 1 (⊤ : WithTop ℚ)))))) :=
  c1_main_path_pair pstTz flexOnlyPolicy 892800 (1/10) [] (1/5) []
    [⟨979200, 1⟩] [(⟨979200, 1⟩, ⊤)] (⟨979200, 1⟩, (⊤ : WithTop ℚ))
    [(979200, 979200)]
    (by decide) (by decide) (by decide) (by decide)
    (by decide) (by decide)
    (by decide) (by decide)

/-- C2: on the main path, if the selected goal's required charging
proportion is at least `1.0` (including `+∞`), the returned charge boolean
is `true`: the current-rate sample seeded into the histogram guarantees
`value_at_quantile 1 ≥ current_rate`.  The positivity of `capacity_kwh`
and `charge_rate_kw` (the data model's invariants, unchecked by
`validate`) confines the statement to the domain on which the `ℚ` model
of the required proportion is faithful to the source's `f64` division
(in particular, no NaN can reach the sort's `partial_cmp().unwrap()`). -/
theorem c2_req_ge_one_charges (tz : Tz) (P : Charging) (now : ℤ) (soc : ℚ)
    (hist : List (ℤ × ℚ)) (cur : ℚ) (fc : List (ℤ × ℚ))
    (gs : List Goal) (grs : List (Goal × WithTop ℚ)) (sel : Goal × WithTop ℚ)
    (la : List (ℤ × ℤ))
    (_hcap : 0 < P.capacity_kwh) (_hrate : 0 < P.charge_rate_kw)
    (h1 : allowed_at tz P now = true) (h2 : soc < P.max_charge)
    (hgs : candidate_goals tz P now soc = some gs)
    (hgrs : goal_reqs tz P now soc gs = some grs)
    (hsel : select_goal grs = some sel)
    (hla : allowed_times_during tz P now sel.1.time = some la)
    (hreq : (1 : WithTop ℚ) ≤ sel.2) :
    ∃ lim, can_charge tz P now soc hist cur fc = some (true, lim) := by
  refine ⟨toI64 (value_at_quantile (main_histogram hist cur fc la)
    (sel.2.untop' 1)), ?_⟩
  rw [can_charge_main tz P now soc hist cur fc h1 h2 hgs hgrs hsel hla]
  have hq : 1 ≤ sel.2.untop' 1 := by
    rcases hsel2 : sel.2 with _ | q
    · exact le_refl 1
    · rw [hsel2] at hreq
      rw [WithTop.some_eq_coe] at hreq
      rw [WithTop.some_eq_coe, WithTop.untop'_coe]
      exact_mod_cast hreq
  have hmem : toU64 cur ∈ main_histogram hist cur fc la := by
    simp [main_histogram]
  have hle := value_at_quantile_le_of_one_le
    (main_histogram hist cur fc la) _ hq _ hmem
  simp [hle]

set_option maxRecDepth 40000 in
theorem c2_witness :
    ∃ lim, can_charge pstTz flexOnlyPolicy 892800 (1/10) [] (1/5) [] =
      some (true, lim) :=
  c2_req_ge_one_charges pstTz flexOnlyPolicy 892800 (1/10) [] (1/5) []
    [⟨979200, 1⟩] [(⟨979200, 1⟩, ⊤)] (⟨979200, 1⟩, (⊤ : WithTop ℚ))
    [(979200, 979200)]
    (by decide) (by decide) (by decide) (by decide)
    (by decide) (by decide)
    (by decide) (by decide)
    (by decide)

/-- C5: the two early exits of `can_charge` — a disallowed instant or a
SoC at or above `max_charge` — return `(false, -1)` for every history,
current rate and forecast (so nothing else is consulted); and on the main
path the returned limit is a recorded sample under the `as i64` cast, so
it is nonnegative whenever every scaled input rate fits in an `i64` (the
sentinel `-1` is then distinguishable). -/
theorem c5_early_exits_and_sentinel :
    (∀ (tz : Tz) (P : Charging) (now : ℤ) (soc : ℚ) (hist : List (ℤ × ℚ))
        (cur : ℚ) (fc : List (ℤ × ℚ)),
      allowed_at tz P now = false ∨ P.max_charge ≤ soc →
      can_charge tz P now soc hist cur fc = some (false, -1)) ∧
    (∀ (tz : Tz) (P : Charging) (now : ℤ) (soc : ℚ) (hist : List (ℤ × ℚ))
        (cur : ℚ) (fc : List (ℤ × ℚ)) (b : Bool) (lim : ℤ),
      allowed_at tz P now = true → soc < P.max_charge →
      (∀ p ∈ hist, toU64 p.2 < 2 ^ 63) → (∀ m ∈ fc, toU64 m.2 < 2 ^ 63) →
      toU64 cur < 2 ^ 63 →
      can_charge tz P now soc hist cur fc = some (b, lim) → 0 ≤ lim) := by
  constructor
  · intro tz P now soc hist cur fc h
    exact can_charge_early tz P now soc hist cur fc h
  · intro tz P now soc hist cur fc b lim hA hsoc hh hf hc h
    obtain ⟨gs, grs, sel, la, _, _, _, _, _, hlim⟩ :=
      can_charge_some_main tz P now soc hist cur fc b lim hA hsoc h
    subst hlim
    apply toI64_nonneg
    have hne : main_histogram hist cur fc la ≠ [] := by
      simp [main_histogram]
    have hmem := value_at_quantile_mem (main_histogram hist cur fc la)
      (sel.2.untop' 1) hne
    rw [main_histogram] at hmem ⊢
    simp only [List.mem_append, List.mem_singleton] at hmem
    rcases hmem with (hmem | hmem) | hmem
    · obtain ⟨p, hp, heq⟩ := mem_histogram_over hmem
      rw [heq]; exact hh p hp
    · obtain ⟨m, hm, heq⟩ := mem_histogram_over hmem
      rw [heq]; exact hf m hm
    · rw [hmem]; exact hc

set_option maxRecDepth 40000 in
theorem c5_witness :
    can_charge pstTz examplePolicy 946900 (1/10) [] (1/5) [] =
      some (false, -1) ∧ (0 : ℤ) ≤ 200 :=
  ⟨c5_early_exits_and_sentinel.1 pstTz examplePolicy 946900 (1/10) [] (1/5)
      [] (Or.inl (by decide)),
   c5_early_exits_and_sentinel.2 pstTz flexOnlyPolicy 892800 (1/10) [] (1/5)
      [] true 200 (by decide)
      (by decide) (by simp) (by simp)
      (by decide) (by decide)⟩


/-- C3 counterexample: the claim fails on the code in two ways.  First,
the union property with days from the local date of `a` fails: with the
default policy and the range `[892800, 896400)` (the first hour of the
00:00–15:00 Pacific window of local day 10), the iterator emits nothing —
`DateIterator` yields `succ_opt()` first and skips local day 10 — yet
`892800` itself lies in the window recurrence.  Second, a zero-length
interval is emitted (not skipped) when a window merely touches the range:
the range `[946900, 979200)` produces the empty interval
`[979200, 979200)`. -/
theorem c3_counterexample :
    ¬ unionClaimC3 pstTz examplePolicy 892800 896400 ∧
    allowed_times_during pstTz examplePolicy 946900 979200 =
      some [(979200, 979200)] := by
  constructor
  · intro h
    have h2 := (h [] (by decide) 892800).mpr
      ⟨le_refl _, by norm_num,
        ⟨10, by decide, (0, 54000), by decide, 892800, 946800,
          by decide, by decide, le_refl _, by norm_num⟩⟩
    simp at h2
  · decide

/-- C3 amended: for every valid policy and range, the intervals emitted by
`allowed_times_during [a, b)` are pairwise disjoint, chronologically
ordered, contained in `[a, b)` and of nonnegative — but possibly zero —
length, and their union is the intersection of `[a, b)` with the
recurrence of the allowed-times pairs on the local days at or after
`local-date(a) + 1` (the day of `a` itself is skipped by the date
iterator). -/
theorem c3_intervals_amended (tz : Tz) (P : Charging) (a b : ℤ)
    (l : List (ℤ × ℤ)) (hval : validate P = true)
    (h : allowed_times_during tz P a b = some l) :
    List.Pairwise (fun iv iv' => iv.2 ≤ iv'.1) l ∧
    (∀ iv ∈ l, a < iv.1 ∧ iv.1 ≤ iv.2 ∧ iv.2 ≤ b) ∧
    (∀ u, (∃ iv ∈ l, iv.1 ≤ u ∧ u < iv.2) ↔
      (a ≤ u ∧ u < b ∧ RecMemFrom tz P (tz.localDay a + 1) u)) := by
  obtain ⟨h1, h2, h3⟩ := allowed_times_during_spec tz P a b l hval h
  exact ⟨h2, h1, h3⟩

set_option maxRecDepth 40000 in
theorem c3_witness :
    validate examplePolicy = true ∧
    allowed_times_during pstTz examplePolicy 892800 1065600 =
      some [(979200, 1033200), (1065600, 1065600)] ∧
    List.Pairwise (fun iv iv' => iv.2 ≤ iv'.1)
      [((979200 : ℤ), (1033200 : ℤ)), (1065600, 1065600)] ∧
    (∀ iv ∈ [((979200 : ℤ), (1033200 : ℤ)), (1065600, 1065600)],
      892800 < iv.1 ∧ iv.1 ≤ iv.2 ∧ iv.2 ≤ 1065600) := by
  have hv : validate examplePolicy = true := by decide
  have hl : allowed_times_during pstTz examplePolicy 892800 1065600 =
      some [(979200, 1033200), (1065600, 1065600)] := by decide
  have hspec := c3_intervals_amended pstTz examplePolicy 892800 1065600
    [(979200, 1033200), (1065600, 1065600)] hv hl
  exact ⟨hv, hl, hspec.1, hspec.2.1⟩

/-- C6 counterexample: with the default policy at `t = 892800` (inside the
00:00–15:00 window), `allowed_at` is true but
`allowed_times_during [t, t+1)` emits nothing — the date iterator skips
the local day of `t` — so the claimed equivalence fails. -/
theorem c6_counterexample :
    allowed_at pstTz examplePolicy 892800 = true ∧
    allowed_times_during pstTz examplePolicy 892800 892801 = some [] ∧
    ¬ (allowed_at pstTz examplePolicy 892800 = true ↔
        ∃ iv ∈ ([] : List (ℤ × ℤ)), iv.1 ≤ 892800 ∧ 892800 < iv.2) := by
  refine ⟨by decide, by decide, ?_⟩
  intro hiff
  have h := hiff.mp (by decide)
  simp at h

/-- C6 amended: for every valid policy and instant `t`, no interval
returned by `allowed_times_during [t, t+1)` contains `t` (every emitted
interval starts strictly after the range start, the date iterator having
skipped the local day of `t`), so the claimed equivalence holds only when
`allowed_at t` is false. -/
theorem c6_no_interval_contains_instant (tz : Tz) (P : Charging) (t : ℤ)
    (l : List (ℤ × ℤ)) (hval : validate P = true)
    (h : allowed_times_during tz P t (t + 1) = some l) :
    ∀ iv ∈ l, ¬ (iv.1 ≤ t ∧ t < iv.2) := by
  obtain ⟨hcont, _, _⟩ := allowed_times_during_spec tz P t (t + 1) l hval h
  rintro iv hiv ⟨hle, _⟩
  exact absurd hle (not_le.mpr (hcont iv hiv).1)

set_option maxRecDepth 40000 in
theorem c6_witness :
    ¬ (((979200 : ℤ), (979200 : ℤ)).1 ≤ 979199 ∧
        (979199 : ℤ) < ((979200 : ℤ), (979200 : ℤ)).2) :=
  c6_no_interval_contains_instant pstTz examplePolicy 979199
    [(979200, 979200)] (by decide) (by decide) (979200, 979200) (by simp)

/-- Shape of a successful `candidate_goals`: the filtered list headed by
the flex goal. -/
theorem candidate_goals_shape (tz : Tz) (P : Charging) (now : ℤ) (soc : ℚ)
    (gs : List Goal) (h : candidate_goals tz P now soc = some gs) :
    ∃ tg tm, gs = (Goal.mk (now + 3600 * P.flex_charge_hours) 1 ::
      (tg ++ tm)).filter
        (fun g => decide (now < g.time) && decide (soc < g.charge)) := by
  rw [candidate_goals] at h
  simp only [Option.bind_eq_bind] at h
  rcases h1 : traverseO (fun g =>
      (tz.fromLocal (tz.localDay now) g.1).map fun u => Goal.mk u g.2)
      P.daily_goals with _ | tg
  · rw [h1] at h; exact Option.noConfusion h
  rw [h1, Option.some_bind] at h
  rcases h2 : traverseO (fun g =>
      (tz.fromLocal (tz.localDay now + 1) g.1).map fun u => Goal.mk u g.2)
      P.daily_goals with _ | tm
  · rw [h2] at h; exact Option.noConfusion h
  rw [h2, Option.some_bind] at h
  injection h with h
  exact ⟨tg, tm, h.symm⟩

/-- C4 amended: on a validated policy with `flex_charge_hours ≥ 1`, past
the two early exits the filtered goal list always contains the flex goal,
so it is non-empty and the `pop().expect("must have at least one goal")`
selection never aborts.  (With `flex_charge_hours = 0`, which `validate`
accepts, the flex goal fails the `goal.time > now` filter and the abort is
reachable — see the counterexample.) -/
theorem c4_flex_goal_selection_total (tz : Tz) (P : Charging) (now : ℤ)
    (soc : ℚ) (hval : validate P = true) (hflex : 1 ≤ P.flex_charge_hours)
    (_hallow : allowed_at tz P now = true) (hsoc : soc < P.max_charge) :
    ∀ gs, candidate_goals tz P now soc = some gs →
      gs ≠ [] ∧ ∀ grs, goal_reqs tz P now soc gs = some grs →
        (select_goal grs).isSome := by
  intro gs hgs
  obtain ⟨_, hmax1, _⟩ := (validate_iff P).mp hval
  obtain ⟨tg, tm, hshape⟩ := candidate_goals_shape tz P now soc gs hgs
  have hflexmem : Goal.mk (now + 3600 * P.flex_charge_hours) 1 ∈ gs := by
    rw [hshape]
    refine List.mem_filter.mpr ⟨List.mem_cons_self _ _, ?_⟩
    simp only [Bool.and_eq_true, decide_eq_true_eq]
    exact ⟨by omega, lt_trans hsoc hmax1⟩
  refine ⟨List.ne_nil_of_mem hflexmem, ?_⟩
  intro grs hgrs
  have hlen := (traverseO_spec _ gs grs (by rw [← goal_reqs]; exact hgrs)).1
  rcases grs with _ | ⟨x, xs⟩
  · exfalso
    have hnil : gs = [] := List.length_eq_zero.mp hlen.symm
    exact (List.ne_nil_of_mem hflexmem) hnil
  · rw [select_goal]
    exact rfl

set_option maxRecDepth 40000 in
/-- C4 counterexample: `flex_charge_hours = 0` passes `validate`, yet with
no daily goals the filtered goal list is empty even past the early exits,
and `can_charge` hits the `expect("must have at least one goal")` panic
(`none`). -/
theorem c4_counterexample :
    validate zeroFlexPolicy = true ∧
    allowed_at pstTz zeroFlexPolicy 892800 = true ∧
    (0 : ℚ) < zeroFlexPolicy.max_charge ∧
    candidate_goals pstTz zeroFlexPolicy 892800 0 = some [] ∧
    can_charge pstTz zeroFlexPolicy 892800 0 [] (1/5) [] = none := by
  refine ⟨by decide, by decide, by decide, by decide, by decide⟩

set_option maxRecDepth 40000 in
theorem c4_witness :
    [Goal.mk 979200 1] ≠ [] ∧
    (select_goal [(Goal.mk 979200 1, (⊤ : WithTop ℚ))]).isSome := by
  have h := c4_flex_goal_selection_total pstTz flexOnlyPolicy 892800 (1/10)
    (by decide) (by decide) (by decide) (by decide) [Goal.mk 979200 1]
    (by decide)
  exact ⟨h.1, h.2 [(Goal.mk 979200 1, (⊤ : WithTop ℚ))] (by decide)⟩

set_option maxRecDepth 40000 in
/-- C7: evaluation of the failing input.  On `gapTz`, local day 0 has no
local time 02:30 (`fromLocal` returns `none`, as chrono's
`and_time(..)` does in a DST gap), the policy with allowed window
02:30–03:30 passes `validate`, and `allowed_times_during` over a range
reaching that day panics (`none` — the source's
`date.and_time(start).unwrap()`), instead of silently skipping the day as
the specification requires. -/
theorem c7_dst_gap_panics :
    gapTz.fromLocal 0 9000 = none ∧
    validate gapPolicy = true ∧
    allowed_times_during gapTz gapPolicy (-57600) 115200 = none := by
  refine ⟨by decide, by decide, by decide⟩

/-- C8 counterexample: a configuration with `capacity_kwh = 0` — breaking
the data model's "positive energy capacity" invariant — is accepted by
`validate`. -/
theorem c8_counterexample :
    validate zeroCapacityPolicy = true ∧
    ¬ (0 < zeroCapacityPolicy.capacity_kwh) := by
  refine ⟨by decide, by decide⟩

/-- C8 amended: `validate` accepts a configuration exactly when
`max_charge ∈ [0, 1)`, `flex_charge_hours ∈ [0, 168)`, every daily-goal
fraction is in `[0, 1)`, and `allowed_times` is non-empty with each
`start < end` and consecutive pairs strictly sorted and non-overlapping;
it does not check the positivity of `capacity_kwh` or
`charge_rate_kw`. -/
theorem c8_validate_characterization (P : Charging) :
    validate P = true ↔ ValidatedInv P :=
  validate_iff P

/-- On a key-sorted entry list the last element has the greatest key. -/
theorem last_key_max {l : List (ℤ × ℚ)}
    (hs : List.Pairwise (fun p q => p.1 < q.1) l) {x : ℤ × ℚ}
    (h : l.getLast? = some x) : ∀ y ∈ l, y.1 ≤ x.1 := by
  obtain ⟨ys, rfl⟩ := List.getLast?_eq_some_iff.mp h
  obtain ⟨_, _, hcross⟩ := List.pairwise_append.mp hs
  intro y hy
  rcases List.mem_append.mp hy with hy | hy
  · exact (hcross y hy x (by simp)).le
  · simp only [List.mem_singleton] at hy
    rw [hy]

/-- On a key-sorted entry list, `find?` with a key-threshold predicate
returns an entry of minimal key among the matches. -/
theorem find?_first_min {l : List (ℤ × ℚ)}
    (hs : List.Pairwise (fun p q => p.1 < q.1) l) {t : ℤ} {q : ℤ × ℚ}
    (h : l.find? (fun p => decide (t < p.1)) = some q) :
    ∀ q' ∈ l, t < q'.1 → q.1 ≤ q'.1 := by
  induction l with
  | nil => simp at h
  | cons a rest ih =>
    rw [List.find?_cons] at h
    rcases hpa : (decide (t < a.1) : Bool) with _ | _
    · rw [hpa] at h
      intro q' hq' ht
      rcases List.mem_cons.mp hq' with rfl | hq'
      · exact absurd ht (by simpa using hpa)
      · exact ih (List.Pairwise.of_cons hs) h q' hq' ht
    · rw [hpa] at h
      injection h with h
      subst h
      intro q' hq' _
      rcases List.mem_cons.mp hq' with rfl | hq'
      · exact le_refl _
      · exact ((List.pairwise_cons.mp hs).1 q' hq').le

/-- C10: on a `History` whose entry list is strictly sorted by start time
(the `BTreeMap` invariant), `History::at t` returns `Some` exactly when
there is an entry with start at most `t` and another with start strictly
greater; the returned `Moer` carries the rate of the latest entry with
start at most `t` and a duration spanning to the next entry's start; and
for every `t` at or after the last entry's start the result is `None`. -/
theorem c10_history_at_characterization (data : List (ℤ × ℚ)) (t : ℤ)
    (hs : List.Pairwise (fun p q => p.1 < q.1) data) :
    ((history_at data t).isSome ↔
      (∃ p ∈ data, p.1 ≤ t) ∧ (∃ q ∈ data, t < q.1)) ∧
    (∀ m, history_at data t = some m →
      (m.start, m.rate) ∈ data ∧ m.start ≤ t ∧
      (∀ p ∈ data, p.1 ≤ t → p.1 ≤ m.start) ∧
      ∃ q ∈ data, q.1 = m.start + m.duration ∧ t < q.1 ∧
        ∀ q' ∈ data, t < q'.1 → q.1 ≤ q'.1) ∧
    (∀ p ∈ data, (∀ q ∈ data, q.1 ≤ p.1) → p.1 ≤ t →
      history_at data t = none) := by
  have hfilter : List.Pairwise (fun p q => p.1 < q.1)
      (data.filter fun p => decide (p.1 ≤ t)) := hs.filter _
  rcases hbef : (data.filter fun p => decide (p.1 ≤ t)).getLast? with _ | pr
  · -- no entry at or before `t`
    have hnone : ∀ p ∈ data, ¬ (p.1 ≤ t) := by
      intro p hp hple
      have : p ∈ data.filter fun p => decide (p.1 ≤ t) :=
        List.mem_filter.mpr ⟨hp, by simpa using hple⟩
      rw [List.getLast?_eq_none_iff.mp hbef] at this
      simp at this
    have hH : history_at data t = none := by
      rw [history_at, hbef]
    refine ⟨?_, ?_, ?_⟩
    · rw [hH]
      simp only [Option.isSome_none, Bool.false_eq_true, false_iff]
      rintro ⟨⟨p, hp, hple⟩, _⟩
      exact hnone p hp hple
    · intro m hm
      rw [hH] at hm
      exact Option.noConfusion hm
    · intro _ _ _ _
      exact hH
  · obtain ⟨s, r⟩ := pr
    have hmemf : (s, r) ∈ data.filter fun p => decide (p.1 ≤ t) := by
      obtain ⟨ys, hys⟩ := List.getLast?_eq_some_iff.mp hbef
      rw [hys]
      simp
    have hmem : (s, r) ∈ data := (List.mem_filter.mp hmemf).1
    have hst : s ≤ t := by
      have := (List.mem_filter.mp hmemf).2
      simpa using this
    have hmax : ∀ p ∈ data, p.1 ≤ t → p.1 ≤ s := by
      intro p hp hple
      exact last_key_max hfilter hbef p
        (List.mem_filter.mpr ⟨hp, by simpa using hple⟩)
    rcases haft : data.find? (fun p => decide (t < p.1)) with _ | qr
    · -- no entry strictly after `t`
      have hnone : ∀ q ∈ data, ¬ (t < q.1) := by
        intro q hq
        have := List.find?_eq_none.mp haft q hq
        simpa using this
      have hH : history_at data t = none := by
        rw [history_at, hbef, haft]
      refine ⟨?_, ?_, ?_⟩
      · rw [hH]
        simp only [Option.isSome_none, Bool.false_eq_true, false_iff]
        rintro ⟨_, ⟨q, hq, hqt⟩⟩
        exact hnone q hq hqt
      · intro m hm
        rw [hH] at hm
        exact Option.noConfusion hm
      · intro _ _ _ _
        exact hH
    · obtain ⟨e, r2⟩ := qr
      have hqmem : (e, r2) ∈ data := List.mem_of_find?_eq_some haft
      have hqt : t < e := by
        have := List.find?_some haft
        simpa using this
      have hqmin : ∀ q' ∈ data, t < q'.1 → e ≤ q'.1 :=
        find?_first_min hs haft
      have hH : history_at data t = some ⟨s, r, e - s⟩ := by
        rw [history_at, hbef, haft]
      refine ⟨?_, ?_, ?_⟩
      · rw [hH]
        simp only [Option.isSome_some, true_iff]
        exact ⟨⟨(s, r), hmem, hst⟩, ⟨(e, r2), hqmem, hqt⟩⟩
      · intro m hm
        rw [hH] at hm
        injection hm with hm
        subst hm
        exact ⟨hmem, hst, hmax, (e, r2), hqmem, by dsimp only; omega, hqt,
          hqmin⟩
      · intro p hp hpmax hpt
        exfalso
        have hle : e ≤ p.1 := hpmax (e, r2) hqmem
        omega
  
set_option maxRecDepth 40000 in
theorem c10_witness :
    history_at [((0 : ℤ), (1 : ℚ)/2), (300, 3/4), (600, 1)] 700 = none := by
  have h := c10_history_at_characterization
    [((0 : ℤ), (1 : ℚ)/2), (300, 3/4), (600, 1)] 700 (by decide)
  exact h.2.2 (600, 1) (by decide) (by decide) (by decide)

/-- One simulator step: the produced record is stamped with the tick time
and each SoC is unchanged or incremented by the per-tick delta, never
exceeding `1` (the decision is `false` once a SoC reaches `max_charge`,
and `max_charge` plus the delta stays at most `1`). -/
theorem sim_step_spec (tz : Tz) (P : Charging) (hist : List (ℤ × ℚ))
    (fcs : List (ℤ × List (ℤ × ℚ))) (now : ℤ) (r r' : SimRecord)
    (hcap : 0 < P.capacity_kwh) (hrate : 0 < P.charge_rate_kw)
    (hmax : P.max_charge + P.charge_rate_kw * (5 / 60) / P.capacity_kwh ≤ 1)
    (h : sim_step tz P hist fcs now r = some r')
    (h10 : r.s10 ≤ 1) (h30 : r.s30 ≤ 1) (h50 : r.s50 ≤ 1) (h70 : r.s70 ≤ 1) :
    r'.time = now ∧
    (r.s10 ≤ r'.s10 ∧ r'.s10 ≤ 1) ∧ (r.s30 ≤ r'.s30 ∧ r'.s30 ≤ 1) ∧
    (r.s50 ≤ r'.s50 ∧ r'.s50 ≤ 1) ∧ (r.s70 ≤ r'.s70 ∧ r'.s70 ≤ 1) := by
  have hdpos : 0 < P.charge_rate_kw * (5 / 60) / P.capacity_kwh :=
    div_pos (mul_pos hrate (by norm_num)) hcap
  rw [sim_step] at h
  simp only [Option.bind_eq_bind] at h
  rcases hc : history_at hist now with _ | cur
  · rw [hc] at h; exact Option.noConfusion h
  rw [hc, Option.some_bind] at h
  rcases hf : latest_forecast fcs now with _ | f
  · rw [hf] at h; exact Option.noConfusion h
  rw [hf, Option.some_bind] at h
  rcases h10d : can_charge tz P now r.s10 hist cur.rate f with _ | d10
  · rw [h10d] at h; exact Option.noConfusion h
  rw [h10d, Option.some_bind] at h
  rcases h30d : can_charge tz P now r.s30 hist cur.rate f with _ | d30
  · rw [h30d] at h; exact Option.noConfusion h
  rw [h30d, Option.some_bind] at h
  rcases h50d : can_charge tz P now r.s50 hist cur.rate f with _ | d50
  · rw [h50d] at h; exact Option.noConfusion h
  rw [h50d, Option.some_bind] at h
  rcases h70d : can_charge tz P now r.s70 hist cur.rate f with _ | d70
  · rw [h70d] at h; exact Option.noConfusion h
  rw [h70d, Option.some_bind] at h
  injection h with h
  subst h
  obtain ⟨b10, l10⟩ := d10
  obtain ⟨b30, l30⟩ := d30
  obtain ⟨b50, l50⟩ := d50
  obtain ⟨b70, l70⟩ := d70
  refine ⟨rfl, ?_, ?_, ?_, ?_⟩
  · rcases b10 with _ | _
    · simp only [Bool.false_eq_true, if_false, add_zero]
      exact ⟨le_refl _, h10⟩
    · have hlt := can_charge_true_soc_lt tz P now r.s10 hist cur.rate f
        l10 h10d
      simp only [if_true]
      constructor
      · linarith
      · linarith
  · rcases b30 with _ | _
    · simp only [Bool.false_eq_true, if_false, add_zero]
      exact ⟨le_refl _, h30⟩
    · have hlt := can_charge_true_soc_lt tz P now r.s30 hist cur.rate f
        l30 h30d
      simp only [if_true]
      constructor
      · linarith
      · linarith
  · rcases b50 with _ | _
    · simp only [Bool.false_eq_true, if_false, add_zero]
      exact ⟨le_refl _, h50⟩
    · have hlt := can_charge_true_soc_lt tz P now r.s50 hist cur.rate f
        l50 h50d
      simp only [if_true]
      constructor
      · linarith
      · linarith
  · rcases b70 with _ | _
    · simp only [Bool.false_eq_true, if_false, add_zero]
      exact ⟨le_refl _, h70⟩
    · have hlt := can_charge_true_soc_lt tz P now r.s70 hist cur.rate f
        l70 h70d
      simp only [if_true]
      constructor
      · linarith
      · linarith

/-- Invariants of the simulator tick loop: row count, head record, tick
times in 300-second steps, monotone SoC columns, and SoCs at most `1`. -/
theorem sim_run_aux_spec (tz : Tz) (P : Charging) (hist : List (ℤ × ℚ))
    (fcs : List (ℤ × List (ℤ × ℚ)))
    (hcap : 0 < P.capacity_kwh) (hrate : 0 < P.charge_rate_kw)
    (hmax : P.max_charge + P.charge_rate_kw * (5 / 60) / P.capacity_kwh ≤ 1) :
    ∀ (n : ℕ) (r : SimRecord) (recs : List SimRecord),
      r.s10 ≤ 1 → r.s30 ≤ 1 → r.s50 ≤ 1 → r.s70 ≤ 1 →
      sim_run_aux tz P hist fcs n r = some recs →
      recs.length = n + 1 ∧ recs.head? = some r ∧
      List.Chain' (fun r1 r2 => r2.time = r1.time + 300) recs ∧
      List.Chain' (fun r1 r2 =>
        r1.s10 ≤ r2.s10 ∧ r1.s30 ≤ r2.s30 ∧ r1.s50 ≤ r2.s50 ∧
        r1.s70 ≤ r2.s70) recs ∧
      ∀ x ∈ recs, x.s10 ≤ 1 ∧ x.s30 ≤ 1 ∧ x.s50 ≤ 1 ∧ x.s70 ≤ 1 := by
  intro n
  induction n with
  | zero =>
    intro r recs h10 h30 h50 h70 h
    simp only [sim_run_aux, Option.some.injEq] at h
    subst h
    refine ⟨rfl, rfl, List.chain'_singleton r, List.chain'_singleton r, ?_⟩
    intro x hx
    simp only [List.mem_singleton] at hx
    subst hx
    exact ⟨h10, h30, h50, h70⟩
  | succ n ih =>
    intro r recs h10 h30 h50 h70 h
    simp only [sim_run_aux, Option.bind_eq_bind] at h
    rcases hstep : sim_step tz P hist fcs (r.time + 300) r with _ | r'
    · rw [hstep] at h; exact Option.noConfusion h
    rw [hstep, Option.some_bind] at h
    rcases hrest : sim_run_aux tz P hist fcs n r' with _ | rest
    · rw [hrest] at h; exact Option.noConfusion h
    rw [hrest, Option.some_bind] at h
    injection h with h
    subst h
    obtain ⟨htime, h10', h30', h50', h70'⟩ := sim_step_spec tz P hist fcs
      (r.time + 300) r r' hcap hrate hmax hstep h10 h30 h50 h70
    obtain ⟨hlen, hhead, hct, hcs, hbound⟩ :=
      ih r' rest h10'.2 h30'.2 h50'.2 h70'.2 hrest
    rcases rest with _ | ⟨r0, rest'⟩
    · exact Option.noConfusion hhead
    injection hhead with hhead
    subst hhead
    refine ⟨by simp [hlen.symm], rfl, ?_, ?_, ?_⟩
    · exact List.chain'_cons.mpr ⟨htime, hct⟩
    · exact List.chain'_cons.mpr ⟨⟨h10'.1, h30'.1, h50'.1, h70'.1⟩, hcs⟩
    · intro x hx
      rcases List.mem_cons.mp hx with rfl | hx'
      · exact ⟨h10, h30, h50, h70⟩
      · exact hbound x hx'

/-- C9: a backtest over 21 days produces exactly 21 outputs (one CSV per
day, per the `src/main.rs` loop); each output contains one row per
5-minute tick from its local-midnight start through
`start + flex_charge_hours` (the initial row followed by
`12 * flex_charge_hours` steps of 300 seconds); each row's SoCs are
produced by a `can_charge` decision per SoC with increment
`charge_rate_kw * (5/60) / capacity_kwh`; and within each output every
SoC column is monotonically non-decreasing and at most `1.0` (given
positive capacity and rate and `max_charge` plus the per-tick increment
at most `1`, as in the specification's scenario configuration). -/
theorem c9_simulator_backtest (tz : Tz) (P : Charging)
    (hist : List (ℤ × ℚ)) (fcs : List (ℤ × List (ℤ × ℚ))) (nowRun : ℤ)
    (backtestDays : ℕ) (runs : List (List SimRecord))
    (hbt : backtestDays = 21)
    (hcap : 0 < P.capacity_kwh) (hrate : 0 < P.charge_rate_kw)
    (hmax : P.max_charge + P.charge_rate_kw * (5 / 60) / P.capacity_kwh ≤ 1)
    (h : simulator_main tz P hist fcs nowRun backtestDays = some runs) :
    runs.length = 21 ∧
    ∀ recs ∈ runs,
      recs.length = (12 * P.flex_charge_hours).toNat + 1 ∧
      (∃ st, recs.head? = some st ∧
        (∃ d, tz.fromLocal d 0 = some st.time) ∧
        st.s10 = 1/10 ∧ st.s30 = 3/10 ∧ st.s50 = 1/2 ∧ st.s70 = 7/10) ∧
      List.Chain' (fun r1 r2 => r2.time = r1.time + 300) recs ∧
      List.Chain' (fun r1 r2 =>
        r1.s10 ≤ r2.s10 ∧ r1.s30 ≤ r2.s30 ∧ r1.s50 ≤ r2.s50 ∧
        r1.s70 ≤ r2.s70) recs ∧
      ∀ x ∈ recs, x.s10 ≤ 1 ∧ x.s30 ≤ 1 ∧ x.s50 ≤ 1 ∧ x.s70 ≤ 1 := by
  subst hbt
  rw [simulator_main] at h
  obtain ⟨hlen, hmem⟩ := traverseO_spec _ _ _ h
  refine ⟨by rw [hlen]; simp, ?_⟩
  intro recs hrecs
  obtain ⟨daysAgo, _, hda⟩ := hmem recs hrecs
  simp only [Option.bind_eq_bind] at hda
  rcases hfl : tz.fromLocal
      (tz.localDay (nowRun - 86400 * (4 + (daysAgo : ℤ)))) 0 with _ | start
  · rw [hfl] at hda; exact Option.noConfusion hda
  rw [hfl, Option.some_bind] at hda
  rw [sim_run] at hda
  obtain ⟨hlen', hhead, hct, hcs, hb⟩ := sim_run_aux_spec tz P hist fcs
    hcap hrate hmax ((12 * P.flex_charge_hours).toNat)
    { time := start, s10 := 1/10, s30 := 3/10, s50 := 1/2, s70 := 7/10,
      emissions := 0, s10_limit := 0, s30_limit := 0, s50_limit := 0,
      s70_limit := 0 } recs (by norm_num) (by norm_num) (by norm_num)
    (by norm_num) hda
  exact ⟨hlen', ⟨_, hhead, ⟨_, hfl⟩, rfl, rfl, rfl, rfl⟩, hct, hcs, hb⟩

set_option maxRecDepth 200000 in
theorem c9_witness :
    ∃ runs, simulator_main pstTz simPolicy simHist simFcs 1000000 21 =
      some runs ∧ runs.length = 21 := by
  have hs : (simulator_main pstTz simPolicy simHist simFcs 1000000 21).isSome
      = true := by decide
  obtain ⟨runs, hruns⟩ := Option.isSome_iff_exists.mp hs
  refine ⟨runs, hruns, ?_⟩
  exact (c9_simulator_backtest pstTz simPolicy simHist simFcs 1000000 21 runs
    rfl (by norm_num [simPolicy]) (by norm_num [simPolicy])
    (by norm_num [simPolicy]) hruns).1

end Sgip
